import Mathlib

/-!
Verification model of the composer-io middleware composition engine.

The TypeScript source under scrutiny consists of

  * the continuation dispatcher, function compose in src/compose.ts
    (src/unnamed/part_001 lines 16-46);
  * assertMiddleware / assertMiddlewares / wrapMiddlewareNextCall /
    flattenMiddleware / noopNext in src/helpers.ts (part_001 lines 54-96);
  * the combinator library in src/snippets.ts;
  * the chain builder class Composer in src/composer.ts;
  * the BoundaryError class in src/error.ts.

Modelling choices, stated once here and referenced below:

  * JavaScript promise computations are modelled by the monad M: a
    computation takes a heap of mutable integer cells (one cell per
    closure-captured mutable variable such as lastIndex, called or
    nextCalled) and returns the updated heap, the list of observable
    events emitted, and a result that is either ok or a rejection
    carrying the thrown value (thrown values are modelled as strings).
  * Middleware bodies are synchronous-effect programs: an asynchronous
    handler runs its effects in order and suspends only when awaiting
    its continuation.  Under this assumption awaiting a chain of such
    handlers is the sequential execution modelled by M.bind.
  * Promise.all of two computations is modelled by running both in
    order and settling after both have settled (the JS guarantee at
    issue in the fork combinator is exactly that Promise.all settles
    only once every element promise has settled); a rejection of either
    element rejects the combined computation.
  * The shared context is an opaque value of a type parameter C passed
    unchanged to every stage, exactly as the engine does.
-/

namespace ComposerModel

/-- Observable events emitted by middleware bodies. -/
abbrev Evt := String

/-- The heap of mutable integer cells; each closure-captured mutable
variable of the source (lastIndex, called, nextCalled) lives in one cell. -/
abbrev Heap := List Int

/-- Result of a promise computation: resolved, or rejected with the thrown
value (thrown values are modelled as strings). -/
inductive Res (α : Type) where
  | ok (a : α)
  | err (msg : String)
deriving Repr, DecidableEq

/-- A promise computation: threads the heap, emits events, and either
resolves with a value or rejects. -/
def M (α : Type) : Type := Heap → Heap × List Evt × Res α

namespace M

/-- Resolve immediately with a value. -/
def pure (a : α) : M α := fun h => (h, [], .ok a)

/-- Sequencing by await: run the first computation; a rejection
propagates, otherwise continue with its value. -/
def bind (m : M α) (f : α → M β) : M β := fun h =>
  match m h with
  | (h1, t, .ok a) =>
      match f a h1 with
      | (h2, t2, r) => (h2, t ++ t2, r)
  | (h1, t, .err e) => (h1, t, .err e)

/-- Emit one observable event. -/
def tell (e : Evt) : M Unit := fun h => (h, [e], .ok ())

/-- Emit a list of observable events. -/
def tells (es : List Evt) : M Unit := fun h => (h, es, .ok ())

/-- Reject with a thrown value. -/
def throwM (msg : String) : M α := fun h => (h, [], .err msg)

/-- Allocate a fresh mutable cell with the given initial value and
return its address. -/
def alloc (v : Int) : M Nat := fun h => (h ++ [v], [], .ok h.length)

/-- Read a mutable cell. -/
def read (c : Nat) : M Int := fun h => (h, [], .ok (h.getD c 0))

/-- Write a mutable cell. -/
def write (c : Nat) (v : Int) : M Unit := fun h => (h.set c v, [], .ok ())

/-- Model of a JS try/catch around an awaited computation: effects
performed before the throw persist, the handler runs on the state at the
moment of the throw. -/
def tryCatch (m : M α) (f : String → M α) : M α := fun h =>
  match m h with
  | (h1, t, .err e) =>
      match f e h1 with
      | (h2, t2, r) => (h2, t ++ t2, r)
  | ok => ok

/-- Model of Promise.all over a pair: both computations run (left one
first, matching evaluation order of the array literal) and the combined
promise settles only after both have settled; it rejects if either
element rejected. -/
def par (a b : M Unit) : M Unit := fun h =>
  match a h with
  | (h1, t1, r1) =>
      match b h1 with
      | (h2, t2, r2) =>
          (h2, t1 ++ t2, match r1 with | .ok _ => r2 | .err e => .err e)

/-- The events of a computation started on the empty heap. -/
def traceOf (m : M α) : List Evt := (m []).2.1

/-- The settlement of a computation started on the empty heap. -/
def resOf (m : M α) : Res α := (m []).2.2

end M

/-!
The middleware contract.  A normalized middleware is a function taking
the context and a continuation (source type MiddlewareFn in
src/types.ts); in the model a stage is a function from the context and
the continuation computation to its own computation.
-/

/-- Semantic type of a normalized middleware handler over contexts of
type C: it receives the context and the continuation and yields its
computation (source type MiddlewareFn). -/
def Sem (C : Type) : Type := C → M Unit → M Unit

/-- Model of skipMiddleware from src/snippets.ts: immediately invokes the
continuation. -/
def skipMiddleware {C : Type} : Sem C := fun _ next => next

/-- Model of stopMiddleware from src/snippets.ts: resolves without ever
invoking the continuation. -/
def stopMiddleware {C : Type} : Sem C := fun _ _ => M.pure ()

/-- Model of noopNext from src/helpers.ts: the terminal continuation that
resolves immediately. -/
def noopNext : M Unit := M.pure ()

/-!
The continuation dispatcher, function compose of src/compose.ts
(src/unnamed/part_001 lines 16-46).  The returned handler allocates a
fresh lastIndex cell initialized to -1 on every invocation and starts
nextDispatch at index 0.  nextDispatch index:
  * rejects with the Error message "next() called multiple times" when
    index is at most lastIndex;
  * otherwise writes lastIndex := index and runs middlewares[index],
    passing it the continuation () => nextDispatch (index + 1); when
    index equals the middleware count it runs the terminal continuation
    next instead (the source resolves directly when next is undefined,
    which coincides with running the noop continuation).
The model recurses structurally on the suffix of middlewares at the
current index, which is the same function because the index grows by
exactly one per nesting level, so an index beyond the middleware count
is never dispatched (the source would resolve immediately there).
-/

/-- The recursive dispatch loop of compose: suffix is the list of
middlewares from the current index on. -/
def nextDispatch {C : Type} (ctx : C) (next : M Unit) (cell : Nat) :
    List (Sem C) → Nat → M Unit
  | suffix, index =>
    M.bind (M.read cell) fun lastIndex =>
      if (index : Int) ≤ lastIndex then
        M.throwM "next() called multiple times"
      else
        M.bind (M.write cell (index : Int)) fun _ =>
          match suffix with
          | [] => next
          | middleware :: rest =>
              middleware ctx (nextDispatch ctx next cell rest (index + 1))

/-- Model of compose from src/compose.ts: the composed handler, which on
each invocation allocates a fresh lastIndex cell starting at -1 and
dispatches index 0. -/
def compose {C : Type} (middlewares : List (Sem C)) : Sem C := fun ctx next =>
  M.bind (M.alloc (-1)) fun cell => nextDispatch ctx next cell middlewares 0

/-!
Deeply embedded middleware bodies.  A stage body is a finite program
that emits events, invokes its continuation, throws, or returns; this is
the class of synchronous-effect handlers described in the header.
-/

/-- A deeply embedded middleware body: emit an event, await the
continuation, throw, or return. -/
inductive MWProg where
  | emit (e : Evt) (rest : MWProg)
  | callNext (rest : MWProg)
  | throwErr (msg : String)
  | done
deriving Repr, DecidableEq

/-- Run a middleware body against its continuation: emits run in order,
callNext awaits the continuation (a rejection propagates, as the bodies
await every call), throwErr rejects. -/
def runProg : MWProg → M Unit → M Unit
  | .emit e rest, k => M.bind (M.tell e) fun _ => runProg rest k
  | .callNext rest, k => M.bind k fun _ => runProg rest k
  | .throwErr msg, _ => M.throwM msg
  | .done, _ => M.pure ()

/-- A middleware body as a stage: the context is ignored by the body
itself (the engine still passes it through unchanged). -/
def progSem {C : Type} (p : MWProg) : Sem C := fun _ k => runProg p k

/-- The events a body emits when every awaited call resolves. -/
def MWProg.emits : MWProg → List Evt
  | .emit e rest => e :: rest.emits
  | .callNext rest => rest.emits
  | .throwErr _ => []
  | .done => []

/-- Whether the body ever invokes its continuation. -/
def MWProg.callsNext : MWProg → Bool
  | .emit _ rest => rest.callsNext
  | .callNext _ => true
  | .throwErr _ => false
  | .done => false

/-- Whether the body never throws. -/
def MWProg.noThrow : MWProg → Bool
  | .emit _ rest => rest.noThrow
  | .callNext rest => rest.noThrow
  | .throwErr _ => false
  | .done => true

/-!
Stage descriptors: the shapes of stage behavior the theorems quantify
over.  calls pres posts is a stage that emits pres, awaits its
continuation exactly once, then emits posts; skips es emits es and
returns without continuing; dbl pres mids emits pres, awaits its
continuation, emits mids, then awaits the same continuation a second
time; thrower es msg emits es and throws msg.
-/

/-- Descriptor of a stage behavior. -/
inductive SD where
  | calls (pres posts : List Evt)
  | skips (es : List Evt)
  | dbl (pres mids : List Evt)
  | thrower (es : List Evt) (msg : String)
deriving Repr, DecidableEq

/-- The middleware body described by a descriptor. -/
def SD.prog : SD → MWProg
  | .calls pres posts => pres.foldr .emit (.callNext (posts.foldr .emit .done))
  | .skips es => es.foldr .emit .done
  | .dbl pres mids =>
      pres.foldr .emit (.callNext (mids.foldr .emit (.callNext .done)))
  | .thrower es msg => es.foldr .emit (.throwErr msg)

/-- The stage described by a descriptor. -/
def SD.sem {C : Type} (d : SD) : Sem C := progSem d.prog

/-- Descriptors that neither throw nor replay their continuation. -/
def SD.benign : SD → Bool
  | .calls _ _ => true
  | .skips _ => true
  | .dbl _ _ => false
  | .thrower _ _ => false

/-- Descriptors that invoke their continuation (exactly once). -/
def SD.continues : SD → Bool
  | .calls _ _ => true
  | .skips _ => false
  | .dbl _ _ => true
  | .thrower _ _ => false

/-- Expected trace and settlement of a chain of described stages run by
the dispatcher with a terminal continuation emitting term: a calls stage
wraps the rest of the chain between its pres and posts (posts are skipped
when the rest rejected), a skips stage halts the chain, a dbl stage
rejects at its second continuation call once the rest of the chain has
completed, a thrower rejects with its own thrown value. -/
def chainSpec : List SD → List Evt → List Evt × Res Unit
  | [], term => (term, .ok ())
  | .calls pres posts :: rest, term =>
      match chainSpec rest term with
      | (t, .ok _) => (pres ++ t ++ posts, .ok ())
      | (t, .err e) => (pres ++ t, .err e)
  | .skips es :: _, _ => (es, .ok ())
  | .dbl pres mids :: rest, term =>
      match chainSpec rest term with
      | (t, .ok _) =>
          (pres ++ t ++ mids, .err "next() called multiple times")
      | (t, .err e) => (pres ++ t, .err e)
  | .thrower es msg :: _, _ => (es, .err msg)

/-- Final value of the lastIndex cell relative to the index at which the
chain started: each stage that continues advances it by one, the
terminal advance included when the whole chain continues. -/
def finalIdx : List SD → Int
  | [] => 0
  | .calls _ _ :: rest => 1 + finalIdx rest
  | .dbl _ _ :: rest => 1 + finalIdx rest
  | .skips _ :: _ => 0
  | .thrower _ _ :: _ => 0

/-!
Model of wrapMiddlewareNextCall from src/helpers.ts (part_001 lines
68-83): runs a middleware with a continuation that records in a local
mutable flag that it was called, throwing the multiple-times error when
it is invoked a second time, and resolves to whether the continuation
was invoked. -/

/-- The one-shot continuation the helper hands to its middleware: throws
the multiple-times error when the called flag is already set, else sets
it. -/
def nextGuard (called : Nat) : M Unit :=
  M.bind (M.read called) fun v =>
    if v ≠ 0 then M.throwM "next() called multiple times"
    else M.write called 1

/-- The continuation-observing helper wrapMiddlewareNextCall. -/
def wrapMiddlewareNextCall {C : Type} (context : C) (middleware : Sem C) :
    M Bool :=
  M.bind (M.alloc 0) fun called =>
  M.bind (middleware context (nextGuard called)) fun _ =>
  M.bind (M.read called) fun v => M.pure (decide (v ≠ 0))

/-- Expected trace and settlement of the observing helper on a described
stage. -/
def wrapSpec : SD → List Evt × Res Bool
  | .calls pres posts => (pres ++ posts, .ok true)
  | .skips es => (es, .ok false)
  | .dbl pres mids => (pres ++ mids, .err "next() called multiple times")
  | .thrower es msg => (es, .err msg)

/-- Final value of the helper's called flag on a described stage. -/
def calledFlag : SD → Int
  | .calls _ _ => 1
  | .dbl _ _ => 1
  | .skips _ => 0
  | .thrower _ _ => 0

/-!
Model of the gate computation of getBeforeMiddleware and
getAfterMiddleware (src/snippets.ts lines 127-141 and 155-171).  Both
call Array.prototype.every with an asynchronous callback.  every
consults only the truthiness of the callback's return value; an
asynchronous callback returns a Promise object, which is truthy no
matter how it later settles, so every element's callback is started and
the loop always answers true.  A rejection of such an unawaited promise
is an unhandled rejection that the combinator never observes.
-/

/-- Truthiness of the promise a started computation returns: the effects
of the computation happen, a rejection is left unobserved, and the
promise object itself is truthy. -/
def promiseTruthy (m : M α) : M Bool :=
  M.tryCatch (M.bind m fun _ => M.pure true) fun _ => M.pure true

/-- Array.prototype.every with an asynchronous callback: visits the
elements in order while the returned value is truthy. -/
def everyAsync (cb : α → M β) : List α → M Bool
  | [] => M.pure true
  | a :: rest =>
      M.bind (promiseTruthy (cb a)) fun b =>
        if b then everyAsync cb rest else M.pure false

/-- Model of getBeforeMiddleware (src/snippets.ts lines 127-141): the
called gate is the result of Array.every of the asynchronous callback
over the observing helper; whenever the gate is truthy the composed main
middlewares run with the outer continuation. -/
def getBeforeMiddleware {C : Type}
    (beforeMiddlewares middlewares : List (Sem C)) : Sem C :=
  fun context next =>
    M.bind (everyAsync
        (fun beforeMiddleware =>
          wrapMiddlewareNextCall context beforeMiddleware)
        beforeMiddlewares) fun called =>
      if called then compose middlewares context next else M.pure ()

/-- Model of getAfterMiddleware (src/snippets.ts lines 155-171): the
mirror of getBeforeMiddleware, gating the after-middlewares on the main
middlewares. -/
def getAfterMiddleware {C : Type}
    (middlewares afterMiddlewares : List (Sem C)) : Sem C :=
  fun context next =>
    M.bind (everyAsync
        (fun middleware => wrapMiddlewareNextCall context middleware)
        middlewares) fun called =>
      if called then compose afterMiddlewares context next else M.pure ()

/-- Model of getEnforceMiddleware (src/snippets.ts lines 185-199): the
concatenation of the three stage lists composed into one flat chain and
run with the outer continuation. -/
def getEnforceMiddleware {C : Type}
    (beforeMiddlewares middlewares afterMiddlewares : List (Sem C)) : Sem C :=
  fun context next =>
    compose (beforeMiddlewares ++ middlewares ++ afterMiddlewares)
      context next

/-- Promise.all over a list of started computations, modelled
sequentially: every element runs and the combined computation settles
after all of them. -/
def mapMQ (f : α → M β) : List α → M (List β)
  | [] => M.pure []
  | a :: rest =>
      M.bind (f a) fun b =>
        M.bind (mapMQ f rest) fun bs => M.pure (b :: bs)

/-- Model of getConcurrencyMiddleware (src/snippets.ts lines 217-231):
Promise.all of the observing helper over every middleware, then the
outer continuation exactly when every helper reported that its
middleware continued. -/
def getConcurrencyMiddleware {C : Type} (middlewares : List (Sem C)) :
    Sem C := fun context next =>
  M.bind (mapMQ
      (fun middleware => wrapMiddlewareNextCall context middleware)
      middlewares) fun concurrencies =>
    if concurrencies.all id then next else M.pure ()

/-!
Model of the boundary error value (src/error.ts) and of
Composer.errorBoundary (src/composer.ts lines 266-288).
-/

/-- The BoundaryError value: the original thrown value and the context
at the moment of failure.  Thrown values are strings in the model. -/
structure BoundaryError (C : Type) where
  error : String
  ctx : C
deriving Repr, DecidableEq

/-- The context alias accessor of the class. -/
def BoundaryError.context {C : Type} (e : BoundaryError C) : C := e.ctx

/-- Display message per generateBoundaryErrorMessage for a thrown string
value (JS classifies a string as a non-error thrown value and truncates
it to 50 characters). -/
def BoundaryError.message {C : Type} (e : BoundaryError C) : String :=
  "Non-error value of type string thrown in middleware: " ++ e.error.take 50

/-- Model of the handler the Composer constructor builds
(src/composer.ts lines 40-45): skipMiddleware when no middleware is
given, otherwise the composition of the given middlewares. -/
def composerHandler {C : Type} (middleware : List (Sem C)) : Sem C :=
  match middleware with
  | [] => skipMiddleware
  | ms => compose ms

/-- Model of the stage Composer.errorBoundary registers (src/composer.ts
lines 266-288): the protected middlewares run as an isolated sub-chain
whose terminal continuation records in a local nextCalled flag that the
sub-chain continued; on a failure the flag is reset and the error
handler receives a BoundaryError wrapping the thrown value and the
context, together with the same recording continuation; finally the
outer continuation runs exactly when the flag is set.  The error handler
is an arbitrary function from the received boundary error to a
middleware body. -/
def errorBoundaryStage {C : Type} (errorHandler : BoundaryError C → MWProg)
    (middleware : List (Sem C)) : Sem C := fun ctx next =>
  M.bind (M.alloc 0) fun nextCalled =>
  M.bind
    (M.tryCatch (composerHandler middleware ctx (M.write nextCalled 1))
      (fun err =>
        M.bind (M.write nextCalled 0) fun _ =>
          runProg (errorHandler (BoundaryError.mk err ctx))
            (M.write nextCalled 1))) fun _ =>
  M.bind (M.read nextCalled) fun v =>
    if v ≠ 0 then next else M.pure ()

/-- Model of the stage Composer.fork registers (src/composer.ts lines
88-95): Promise.all of the outer continuation and the sub-chain run with
the noop terminal continuation. -/
def forkStage {C : Type} (sub : Sem C) : Sem C := fun ctx next =>
  M.par next (sub ctx noopNext)

/-!
Model of the eager validation of compose (part_001 lines 16-18 and
54-66).  The values handed to compose are whatever the call sites
produced after flattening: functions, or values that are not callable.
-/

/-- A JavaScript value handed to compose: a function built from a
middleware body, or a value that is not callable. -/
inductive JSVal where
  | fnV (p : MWProg)
  | notCallable (tag : String)
deriving Repr, DecidableEq

/-- The typeof middleware equals function test. -/
def JSVal.isFunction : JSVal → Bool
  | .fnV _ => true
  | .notCallable _ => false

/-- Model of assertMiddleware (part_001 lines 54-60): a TypeError when
the value is not a function. -/
def assertMiddleware (v : JSVal) : Except String Unit :=
  if v.isFunction then .ok ()
  else .error "Middleware must be composed of function!"

/-- Model of assertMiddlewares (part_001 lines 62-66): forEach over
assertMiddleware; the first thrown TypeError aborts the loop and
propagates. -/
def assertMiddlewares : List JSVal → Except String Unit
  | [] => .ok ()
  | v :: rest =>
      match assertMiddleware v with
      | .ok _ => assertMiddlewares rest
      | .error e => .error e

/-- The stage a callable compose argument denotes. -/
def JSVal.sem {C : Type} : JSVal → Sem C
  | .fnV p => progSem p
  | .notCallable _ => skipMiddleware

/-- Model of compose including its eager validation (part_001 lines
16-46): assertMiddlewares runs when compose itself is called, so a
non-callable argument yields the TypeError before the composed handler
exists; only when every argument is a function is the dispatcher built
and returned. -/
def composeChecked (C : Type) (middlewares : List JSVal) :
    Except String (Sem C) :=
  match assertMiddlewares middlewares with
  | .ok _ => .ok (compose (middlewares.map JSVal.sem))
  | .error e => .error e

/-!
Model of the chain builder (the Composer class, src/composer.ts).  A
Composer instance is a mutable object whose handler field is replaced by
use; the builder heap maps composer identities to their current handler.
Handlers are represented syntactically so that the model can distinguish
a handler value captured at build time from a closure that re-reads a
composer's current handler at invocation time:

  * prog p           - a plain function middleware with body p;
  * skipH / stopH    - the skipMiddleware / stopMiddleware constants;
  * tapStage m       - the wrapper getTapMiddleware m builds
                       (src/snippets.ts lines 66-72): runs the
                       flattening of m with the noop continuation, then
                       unconditionally the real continuation (the
                       flattening happens at invocation time, inside the
                       wrapper's body);
  * forkH cid        - the closure Composer.fork registers (composer.ts
                       lines 88-95): it reads composer.handler of the
                       sub-builder cid afresh at every invocation;
  * lazyBranch b t f - the stage lazy of getBranchMiddleware b t f
                       registers for a literal boolean condition
                       (composer.ts lines 100-109 and 117-141,
                       snippets.ts lines 43-51 and 100-113): at each
                       invocation the chosen middleware value is
                       flattened against the current builder heap and
                       composed;
  * comp hs          - compose of already-captured handler values.

A middleware value (MVal) handed to builder methods is either a plain
function carrying its handler, or a composer object; flattenMiddleware
(part_001 lines 86-90) of a function is the function itself, and of a
composer object is the value its middleware getter returns at the
moment flattenMiddleware runs, that is, the composer's current handler.
-/

mutual
/-- Syntactic handlers held by builder instances. -/
inductive HB where
  | prog (p : MWProg)
  | skipH
  | stopH
  | tapStage (m : MVal)
  | forkH (cid : Nat)
  | lazyBranch (cond : Bool) (t f : MVal)
  | comp (hs : List HB)

/-- A middleware value handed to the builder: a plain function or a
composer object. -/
inductive MVal where
  | fnH (h : HB)
  | obj (cid : Nat)
end

/-- The builder heap: composer identity to current handler. -/
abbrev CHeap := List HB

/-- flattenMiddleware against the current builder heap: a function
flattens to itself, a composer object flattens to its current handler
(read at this very moment through the middleware getter). -/
def flattenMiddleware (ch : CHeap) : MVal → HB
  | .fnH h => h
  | .obj cid => ch.getD cid .skipH

/-- The Composer constructor (composer.ts lines 40-45): flattens its
arguments now and stores skipMiddleware (no arguments) or their
composition as the new object's handler; yields the updated heap and the
new composer's identity. -/
def newComposer (ch : CHeap) (mws : List MVal) : CHeap × Nat :=
  let handler :=
    match mws with
    | [] => HB.skipH
    | ms => HB.comp (ms.map (flattenMiddleware ch))
  (ch ++ [handler], ch.length)

/-- Composer.use (composer.ts lines 64-69): builds a throwaway composer
from the new middleware values and replaces the caller's handler with
compose of the old handler and that composer's handler, both captured
immediately. -/
def Composer.use (ch : CHeap) (self : Nat) (mws : List MVal) : CHeap :=
  let r := newComposer ch mws
  r.1.set self (HB.comp [r.1.getD self .skipH, r.1.getD r.2 .skipH])

/-- Composer.tap (composer.ts lines 81-86): a sub-composer over the tap
wrappers, registered in the parent through use applied to the
sub-composer object (whose handler use captures immediately); the
sub-composer is returned. -/
def Composer.tap (ch : CHeap) (self : Nat) (mws : List MVal) : CHeap × Nat :=
  let r := newComposer ch (mws.map fun m => MVal.fnH (.tapStage m))
  (Composer.use r.1 self [MVal.obj r.2], r.2)

/-- Composer.fork (composer.ts lines 88-95): a sub-composer over the
given middlewares, registered in the parent through use applied to a
closure that re-reads the sub-composer's handler at each invocation; the
sub-composer is returned. -/
def Composer.fork (ch : CHeap) (self : Nat) (mws : List MVal) : CHeap × Nat :=
  let r := newComposer ch mws
  (Composer.use r.1 self [MVal.fnH (.forkH r.2)], r.2)

/-- Composer.filter (composer.ts lines 117-125): a sub-composer over the
given middlewares, registered through branch (hence lazy) with the
sub-composer object as the true middleware and skipMiddleware as the
false one; the sub-composer is returned. -/
def Composer.filter (ch : CHeap) (self : Nat) (cond : Bool)
    (mws : List MVal) : CHeap × Nat :=
  let r := newComposer ch mws
  (Composer.use r.1 self
    [MVal.fnH (.lazyBranch cond (MVal.obj r.2) (MVal.fnH .skipH))], r.2)

/-- Composer.drop (composer.ts lines 133-141): as filter, with
stopMiddleware as the false middleware. -/
def Composer.drop (ch : CHeap) (self : Nat) (cond : Bool)
    (mws : List MVal) : CHeap × Nat :=
  let r := newComposer ch mws
  (Composer.use r.1 self
    [MVal.fnH (.lazyBranch cond (MVal.obj r.2) (MVal.fnH .stopH))], r.2)

/-- Invocation-time semantics of a syntactic handler against the builder
heap as it stands at run time.  The fuel bounds the number of handler
dereferences (the source could recurse forever on a self-referential
fork); every scenario below runs far within the given fuel. -/
def HB.sem {C : Type} : Nat → CHeap → HB → Sem C
  | 0, _, _ => fun _ _ => M.throwM "fuel exhausted"
  | fuel + 1, ch, h =>
    match h with
    | .prog p => progSem p
    | .skipH => skipMiddleware
    | .stopH => stopMiddleware
    | .tapStage m => fun ctx next =>
        M.bind (HB.sem fuel ch (flattenMiddleware ch m) ctx noopNext)
          fun _ => next
    | .forkH cid => fun ctx next =>
        M.par next (HB.sem fuel ch (ch.getD cid .skipH) ctx noopNext)
    | .lazyBranch cond t f => fun ctx next =>
        compose [HB.sem fuel ch (flattenMiddleware ch (if cond then t else f))]
          ctx next
    | .comp hs => fun ctx next =>
        compose (hs.map (HB.sem fuel ch)) ctx next

/-- The builder scenario for a tree-returning method: start from an
empty parent composer, invoke the method with one middleware emitting m1
(and continuing), then extend the returned sub-composer with a
middleware emitting m2 (and continuing) through use, then run the parent
with the noop terminal continuation (Composer.run, composer.ts lines
316-318).  The result is the trace of the parent invocation. -/
def subBuilderScenario
    (method : CHeap → Nat → List MVal → CHeap × Nat) : List Evt :=
  let parent := newComposer [] []
  let stepped := method parent.1 parent.2
    [MVal.fnH (.prog (.emit "m1" (.callNext .done)))]
  let final := Composer.use stepped.1 stepped.2
    [MVal.fnH (.prog (.emit "m2" (.callNext .done)))]
  M.traceOf
    (HB.sem (C := Unit) 10 final (final.getD parent.2 .skipH) () noopNext)

/-!
From here on: theorems.  First the running equations and general lemmas
about the dispatcher, then the per-claim theorems, witnesses and
counterexamples.
-/

theorem M.bind_apply (m : M α) (f : α → M β) (h : Heap) :
    M.bind m f h =
      match m h with
      | (h1, t, .ok a) =>
          match f a h1 with
          | (h2, t2, r) => (h2, t ++ t2, r)
      | (h1, t, .err e) => (h1, t, .err e) := rfl

theorem M.pure_apply (a : α) (h : Heap) : M.pure a h = (h, [], .ok a) := rfl

theorem M.tell_apply (e : Evt) (h : Heap) : M.tell e h = (h, [e], .ok ()) := rfl

theorem M.tells_apply (es : List Evt) (h : Heap) :
    M.tells es h = (h, es, .ok ()) := rfl

theorem M.throwM_apply (msg : String) (h : Heap) :
    M.throwM (α := α) msg h = (h, [], .err msg) := rfl

theorem M.alloc_apply (v : Int) (h : Heap) :
    M.alloc v h = (h ++ [v], [], .ok h.length) := rfl

theorem M.read_apply (c : Nat) (h : Heap) :
    M.read c h = (h, [], .ok (h.getD c 0)) := rfl

theorem M.write_apply (c : Nat) (v : Int) (h : Heap) :
    M.write c v h = (h.set c v, [], .ok ()) := rfl

theorem noopNext_eq_tells : noopNext = M.tells [] := rfl

theorem Heap.getD_append_left (h l : Heap) (c : Nat) (hc : c < h.length) :
    (h ++ l).getD c 0 = h.getD c 0 := by
  induction h generalizing c with
  | nil => simp at hc
  | cons x xs ih =>
    cases c with
    | zero => rfl
    | succ n =>
      simp only [List.cons_append, List.getD, List.get?]
      exact ih n (by simpa using hc)

theorem Heap.getD_append_last (h : Heap) (v : Int) :
    (h ++ [v]).getD h.length 0 = v := by
  induction h with
  | nil => rfl
  | cons x xs ih => simp [ih]

theorem Heap.getD_set_self (h : Heap) (c : Nat) (v : Int) (hc : c < h.length) :
    (h.set c v).getD c 0 = v := by
  induction h generalizing c with
  | nil => simp at hc
  | cons x xs ih =>
    cases c with
    | zero => rfl
    | succ n => exact ih n (by simpa using hc)

theorem Heap.set_getD_self (h : Heap) (c : Nat) (hc : c < h.length) :
    h.set c (h.getD c 0) = h := by
  induction h generalizing c with
  | nil => simp at hc
  | cons x xs ih =>
    cases c with
    | zero => rfl
    | succ n => simpa using ih n (by simpa using hc)

theorem Heap.set_append_last (h : Heap) (v w : Int) :
    (h ++ [v]).set h.length w = h ++ [w] := by
  induction h with
  | nil => rfl
  | cons x xs ih => simp [ih]

theorem Heap.set_append_left (h l : Heap) (c : Nat) (v : Int)
    (hc : c < h.length) :
    (h ++ l).set c v = (h.set c v) ++ l := by
  induction h generalizing c with
  | nil => simp at hc
  | cons x xs ih =>
    cases c with
    | zero => rfl
    | succ n =>
      simp only [List.cons_append, List.set, List.append_eq]
      rw [ih n (by simpa using hc)]

theorem M.par_apply (a b : M Unit) (h : Heap) :
    M.par a b h =
      (match a h with
       | (h1, t1, r1) =>
          (match b h1 with
           | (h2, t2, r2) =>
              (h2, t1 ++ t2,
                match r1 with | .ok _ => r2 | .err e => .err e))) := rfl

theorem finalIdx_nonneg (ds : List SD) : 0 ≤ finalIdx ds := by
  induction ds with
  | nil => simp [finalIdx]
  | cons d rest ih =>
    cases d <;> simp [finalIdx] <;> omega

/-!
Running equations for the dispatcher.  A dispatch at a fresh index
(strictly above the current lastIndex) records the index and runs the
stage there, or the terminal continuation past the end; a dispatch at a
stale index rejects with the multiple-times error.
-/

theorem nextDispatch_fresh {C : Type} (ctx : C) (next : M Unit) (cell : Nat)
    (suffix : List (Sem C)) (i : Nat) (h : Heap)
    (hv : h.getD cell 0 < (i : Int)) :
    nextDispatch ctx next cell suffix i h =
      match suffix with
      | [] => next (h.set cell (i : Int))
      | middleware :: rest =>
          middleware ctx (nextDispatch ctx next cell rest (i + 1))
            (h.set cell (i : Int)) := by
  have hnot : ¬ ((i : Int) ≤ h.getD cell 0) := by omega
  cases suffix <;>
  · rw [nextDispatch]
    simp only [M.bind_apply, M.read_apply, if_neg hnot, M.write_apply,
      List.nil_append]

theorem nextDispatch_stale {C : Type} (ctx : C) (next : M Unit) (cell : Nat)
    (suffix : List (Sem C)) (i : Nat) (h : Heap)
    (hv : (i : Int) ≤ h.getD cell 0) :
    nextDispatch ctx next cell suffix i h =
      (h, [], .err "next() called multiple times") := by
  cases suffix <;>
  · rw [nextDispatch]
    simp only [M.bind_apply, M.read_apply, if_pos hv, M.throwM_apply,
      List.nil_append]

/-- Running a body that starts with a list of emits prepends those events
to the run of the remainder. -/
theorem runProg_foldr_emit (es : List Evt) (p : MWProg) (k : M Unit) (h : Heap) :
    runProg (es.foldr .emit p) k h =
      (match runProg p k h with
       | (h1, t, r) => (h1, es ++ t, r)) := by
  induction es with
  | nil =>
    match hp : runProg p k h with
    | (h1, t, r) => simp [hp]
  | cons e rest ih =>
    simp only [List.foldr_cons, runProg, M.bind_apply, M.tell_apply, ih]
    match hp : runProg p k h with
    | (h1, t, r) => simp

/-!
Running equations for each stage shape against an abstract continuation.
-/

theorem runProg_calls (pres posts : List Evt) (k : M Unit) (h : Heap) :
    runProg (SD.prog (.calls pres posts)) k h =
      (match k h with
       | (h1, t, .ok _) => (h1, pres ++ t ++ posts, .ok ())
       | (h1, t, .err e) => (h1, pres ++ t, .err e)) := by
  rw [SD.prog, runProg_foldr_emit]
  show (match (M.bind k fun _ =>
      runProg (posts.foldr .emit .done) k) h with
    | (h1, t, r) => (h1, pres ++ t, r)) = _
  rw [M.bind_apply]
  rcases hk : k h with ⟨h1, t, r⟩
  cases r with
  | ok a => simp [runProg_foldr_emit, runProg, M.pure_apply]
  | err e => simp

theorem runProg_skips (es : List Evt) (k : M Unit) (h : Heap) :
    runProg (SD.prog (.skips es)) k h = (h, es, .ok ()) := by
  rw [SD.prog, runProg_foldr_emit]
  simp [runProg, M.pure_apply]

theorem runProg_thrower (es : List Evt) (msg : String) (k : M Unit) (h : Heap) :
    runProg (SD.prog (.thrower es msg)) k h = (h, es, .err msg) := by
  rw [SD.prog, runProg_foldr_emit]
  simp [runProg, M.throwM_apply]

theorem runProg_dbl (pres mids : List Evt) (k : M Unit) (h : Heap) :
    runProg (SD.prog (.dbl pres mids)) k h =
      (match k h with
       | (h1, t, .ok _) =>
          (match k h1 with
           | (h2, t2, r2) =>
              (h2, pres ++ t ++ mids ++ t2,
                match r2 with | .ok _ => .ok () | .err e => .err e))
       | (h1, t, .err e) => (h1, pres ++ t, .err e)) := by
  rw [SD.prog, runProg_foldr_emit]
  show (match (M.bind k fun _ =>
      runProg (mids.foldr .emit (.callNext .done)) k) h with
    | (h1, t, r) => (h1, pres ++ t, r)) = _
  rw [M.bind_apply]
  rcases hk : k h with ⟨h1, t, r⟩
  cases r with
  | ok a =>
    simp only [runProg_foldr_emit, runProg, M.bind_apply]
    rcases hk1 : k h1 with ⟨h2, t2, r2⟩
    cases r2 with
    | ok a2 => simp [M.pure_apply, List.append_assoc]
    | err e2 => simp [List.append_assoc]
  | err e => simp

/-!
The central dispatch theorem: running the dispatcher over a chain of
described stages, with a terminal continuation that emits term, produces
exactly the trace and settlement of chainSpec, touching no cell but the
chain's own lastIndex cell.
-/

theorem nextDispatch_chain {C : Type} (ctx : C) (term : List Evt) (cell : Nat) :
    ∀ (ds : List SD) (i : Nat) (h : Heap), cell < h.length →
      h.getD cell 0 = (i : Int) - 1 →
      nextDispatch ctx (M.tells term) cell (ds.map SD.sem) i h =
        (h.set cell ((i : Int) + finalIdx ds),
          (chainSpec ds term).1, (chainSpec ds term).2) := by
  intro ds
  induction ds with
  | nil =>
    intro i h hc hv
    rw [nextDispatch_fresh ctx _ cell _ i h (by omega)]
    simp [M.tells_apply, chainSpec, finalIdx]
  | cons d rest ih =>
    intro i h hc hv
    rw [List.map_cons, nextDispatch_fresh ctx _ cell _ i h (by omega)]
    have hc1 : cell < (h.set cell (i : Int)).length := by
      simpa using hc
    have hv1 : (h.set cell (i : Int)).getD cell 0 = ((i + 1 : Nat) : Int) - 1 := by
      rw [Heap.getD_set_self h cell _ hc]
      push_cast
      ring
    have hrest := ih (i + 1) (h.set cell (i : Int)) hc1 hv1
    have harith : ((i + 1 : Nat) : Int) + finalIdx rest =
        (i : Int) + (1 + finalIdx rest) := by push_cast; ring
    rw [harith, List.set_set] at hrest
    rcases hspec : chainSpec rest term with ⟨t, r⟩
    rw [hspec] at hrest
    cases d with
    | calls pres posts =>
      show runProg (SD.prog (.calls pres posts)) _ _ = _
      rw [runProg_calls, hrest]
      cases r with
      | ok a => simp [chainSpec, finalIdx, hspec]
      | err e => simp [chainSpec, finalIdx, hspec]
    | skips es =>
      show runProg (SD.prog (.skips es)) _ _ = _
      rw [runProg_skips]
      simp [chainSpec, finalIdx]
    | thrower es msg =>
      show runProg (SD.prog (.thrower es msg)) _ _ = _
      rw [runProg_thrower]
      simp [chainSpec, finalIdx]
    | dbl pres mids =>
      show runProg (SD.prog (.dbl pres mids)) _ _ = _
      rw [runProg_dbl, hrest]
      cases r with
      | ok a =>
        have hstale : nextDispatch ctx (M.tells term) cell (rest.map SD.sem)
            (i + 1) (h.set cell ((i : Int) + (1 + finalIdx rest))) =
            (h.set cell ((i : Int) + (1 + finalIdx rest)), [],
              .err "next() called multiple times") := by
          apply nextDispatch_stale
          rw [Heap.getD_set_self _ cell _ (by simpa using hc)]
          have := finalIdx_nonneg rest
          push_cast
          omega
        simp [hstale, chainSpec, finalIdx, hspec]
      | err e =>
        simp [chainSpec, finalIdx, hspec]

/-- Invocation-level corollary: one invocation of the composed handler on
any pre-existing heap allocates one fresh lastIndex cell at the end of
the heap and otherwise produces exactly the chainSpec trace and
settlement, independently of the pre-existing heap contents. -/
theorem compose_chain {C : Type} (ds : List SD) (term : List Evt) (ctx : C)
    (h : Heap) :
    compose (ds.map SD.sem) ctx (M.tells term) h =
      (h ++ [finalIdx ds], (chainSpec ds term).1, (chainSpec ds term).2) := by
  show (M.bind (M.alloc (-1)) fun cell =>
    nextDispatch ctx (M.tells term) cell (ds.map SD.sem) 0) h = _
  rw [M.bind_apply, M.alloc_apply]
  show (match nextDispatch ctx (M.tells term) h.length (ds.map SD.sem) 0
      (h ++ [-1]) with
    | (h2, t2, r) => (h2, ([] : List Evt) ++ t2, r)) = _
  rw [nextDispatch_chain ctx term h.length ds 0 (h ++ [-1]) (by simp)
    (by rw [Heap.getD_append_last]; norm_num)]
  rw [Heap.set_append_last]
  simp

theorem nextGuard_unset (c : Nat) (h : Heap) (hv : h.getD c 0 = 0) :
    nextGuard c h = (h.set c 1, [], .ok ()) := by
  rw [nextGuard, M.bind_apply, M.read_apply]
  show (match (if h.getD c 0 ≠ 0 then
      M.throwM (α := Unit) "next() called multiple times"
      else M.write c 1) h with
    | (h2, t2, r) => (h2, ([] : List Evt) ++ t2, r)) = _
  rw [if_neg (by rw [hv]; norm_num), M.write_apply]
  simp

theorem nextGuard_set (c : Nat) (h : Heap) (hv : h.getD c 0 ≠ 0) :
    nextGuard c h = (h, [], .err "next() called multiple times") := by
  rw [nextGuard, M.bind_apply, M.read_apply]
  show (match (if h.getD c 0 ≠ 0 then
      M.throwM (α := Unit) "next() called multiple times"
      else M.write c 1) h with
    | (h2, t2, r) => (h2, ([] : List Evt) ++ t2, r)) = _
  rw [if_pos hv, M.throwM_apply]
  simp

theorem wrap_run {C : Type} (ctx : C) (d : SD) (h : Heap) :
    wrapMiddlewareNextCall ctx (SD.sem d) h =
      (h ++ [calledFlag d], (wrapSpec d).1, (wrapSpec d).2) := by
  have hguard : nextGuard h.length (h ++ [(0 : Int)]) =
      (h ++ [(1 : Int)], [], .ok ()) := by
    rw [nextGuard_unset h.length _ (Heap.getD_append_last h 0),
      Heap.set_append_last]
  have hguard2 : nextGuard h.length (h ++ [(1 : Int)]) =
      (h ++ [(1 : Int)], [], .err "next() called multiple times") := by
    rw [nextGuard_set h.length _ (by rw [Heap.getD_append_last]; norm_num)]
  cases d with
  | calls pres posts =>
    simp only [wrapMiddlewareNextCall, M.bind_apply, M.alloc_apply, SD.sem,
      progSem, runProg_calls, hguard, M.read_apply, Heap.getD_append_last,
      M.pure_apply]
    simp [wrapSpec, calledFlag]
  | skips es =>
    simp only [wrapMiddlewareNextCall, M.bind_apply, M.alloc_apply, SD.sem,
      progSem, runProg_skips, M.read_apply, Heap.getD_append_last,
      M.pure_apply]
    simp [wrapSpec, calledFlag]
  | dbl pres mids =>
    simp only [wrapMiddlewareNextCall, M.bind_apply, M.alloc_apply, SD.sem,
      progSem, runProg_dbl, hguard, hguard2]
    simp [wrapSpec, calledFlag]
  | thrower es msg =>
    simp only [wrapMiddlewareNextCall, M.bind_apply, M.alloc_apply, SD.sem,
      progSem, runProg_thrower]
    simp [wrapSpec, calledFlag]

/-- chainSpec of a chain in which every stage continues exactly once:
all pre-events in declaration order, then the terminal events, then all
post-events in reverse declaration order. -/
theorem chainSpec_calls (ps : List (List Evt × List Evt)) (term : List Evt) :
    chainSpec (ps.map fun pr => SD.calls pr.1 pr.2) term =
      ((ps.map Prod.fst).flatten ++ term ++ (ps.reverse.map Prod.snd).flatten,
        .ok ()) := by
  induction ps with
  | nil => simp [chainSpec]
  | cons p rest ih =>
    simp [chainSpec, ih, List.append_assoc]

/-- chainSpec across a prefix of single-continuation stages wraps the
spec of the remaining chain. -/
theorem chainSpec_calls_append (ps : List (List Evt × List Evt))
    (ds : List SD) (term : List Evt) :
    chainSpec ((ps.map fun pr => SD.calls pr.1 pr.2) ++ ds) term =
      (match chainSpec ds term with
       | (t, .ok _) =>
          ((ps.map Prod.fst).flatten ++ t ++ (ps.reverse.map Prod.snd).flatten,
            .ok ())
       | (t, .err e) => ((ps.map Prod.fst).flatten ++ t, .err e)) := by
  induction ps with
  | nil =>
    rcases h : chainSpec ds term with ⟨t, r⟩
    cases r <;> simp [h]
  | cons p rest ih =>
    rcases h : chainSpec ds term with ⟨t, r⟩
    rw [h] at ih
    cases r <;> simp [chainSpec, ih, List.append_assoc]

/-- finalIdx across a prefix of single-continuation stages. -/
theorem finalIdx_calls_append (ps : List (List Evt × List Evt)) (ds : List SD) :
    finalIdx ((ps.map fun pr => SD.calls pr.1 pr.2) ++ ds) =
      ps.length + finalIdx ds := by
  induction ps with
  | nil => simp
  | cons p rest ih => simp [finalIdx, ih]; ring

/-- Dispatching through a prefix of single-continuation stages with an
arbitrary continuation for the rest of the chain: the prefix wraps the
rest between its pre-events and (on success) its reversed post-events. -/
theorem nextDispatch_callsPrefix {C : Type} (ctx : C) (next : M Unit)
    (cell : Nat) (rest : List (Sem C)) :
    ∀ (ps : List (List Evt × List Evt)) (i : Nat) (h : Heap),
      cell < h.length → h.getD cell 0 = (i : Int) - 1 →
      nextDispatch ctx next cell
          ((ps.map fun pr => SD.sem (.calls pr.1 pr.2)) ++ rest) i h =
        (match nextDispatch ctx next cell rest (i + ps.length)
            (h.set cell ((i : Int) + ps.length - 1)) with
         | (h2, t, .ok a) =>
            (h2, (ps.map Prod.fst).flatten ++ t ++ (ps.reverse.map Prod.snd).flatten,
              .ok a)
         | (h2, t, .err e) => (h2, (ps.map Prod.fst).flatten ++ t, .err e)) := by
  intro ps
  induction ps with
  | nil =>
    intro i h hc hv
    have hset : h.set cell ((i : Int) + ([] : List (List Evt × List Evt)).length
        - 1) = h := by
      have hs : ((i : Int) + ([] : List (List Evt × List Evt)).length - 1) =
          h.getD cell 0 := by
        rw [hv]; simp
      rw [hs, Heap.set_getD_self h cell hc]
    rw [hset]
    rcases hd : nextDispatch ctx next cell rest (i + [].length) h with ⟨h2, t, r⟩
    simp only [List.length_nil, Nat.add_zero] at hd
    rw [List.map_nil, List.nil_append, hd]
    cases r <;> simp
  | cons p rest2 ih =>
    intro i h hc hv
    rw [List.map_cons, List.cons_append,
      nextDispatch_fresh ctx _ cell _ i h (by omega)]
    show runProg (SD.prog (.calls p.1 p.2)) _ _ = _
    rw [runProg_calls,
      ih (i + 1) (h.set cell (i : Int)) (by simpa using hc)
        (by rw [Heap.getD_set_self h cell _ hc]; push_cast; ring)]
    rw [List.set_set]
    have hnat : i + 1 + rest2.length = i + (p :: rest2).length := by
      simp; omega
    have hint : ((i + 1 : Nat) : Int) + rest2.length - 1 =
        (i : Int) + ((p :: rest2).length : Int) - 1 := by
      push_cast; simp; ring
    rw [hnat, hint]
    rcases hd : nextDispatch ctx next cell rest (i + (p :: rest2).length)
        (h.set cell ((i : Int) + ((p :: rest2).length : Int) - 1)) with ⟨h2, t, r⟩
    cases r <;> simp [List.append_assoc]

/-- Running a body whose continuation is a silent flag write: the trace
is the body's emits, the flag is set exactly when the body invoked its
continuation, and the run resolves when the body never throws. -/
theorem runProg_writeK (f : Nat) :
    ∀ (p : MWProg) (h : Heap), p.noThrow = true →
      runProg p (M.write f 1) h =
        ((if p.callsNext then h.set f 1 else h), p.emits, .ok ()) := by
  intro p
  induction p with
  | emit e rest ih =>
    intro h hn
    have hn2 : rest.noThrow = true := by simpa [MWProg.noThrow] using hn
    simp [runProg, M.bind_apply, M.tell_apply, ih h hn2, MWProg.emits,
      MWProg.callsNext]
  | callNext rest ih =>
    intro h hn
    have hn2 : rest.noThrow = true := by simpa [MWProg.noThrow] using hn
    simp [runProg, M.bind_apply, M.write_apply, ih (h.set f 1) hn2,
      MWProg.emits, MWProg.callsNext, List.set_set]
  | throwErr msg =>
    intro h hn
    simp [MWProg.noThrow] at hn
  | done =>
    intro h hn
    simp [runProg, M.pure_apply, MWProg.emits, MWProg.callsNext]

theorem M.tryCatch_apply (m : M α) (f : String → M α) (h : Heap) :
    M.tryCatch m f h =
      (match m h with
       | (h1, t, .err e) =>
          (match f e h1 with
           | (h2, t2, r) => (h2, t ++ t2, r))
       | (h1, t, .ok a) => (h1, t, .ok a)) := by
  rcases hm : m h with ⟨h1, t, r⟩
  cases r <;> simp [M.tryCatch, hm]

/-- The promise returned by a started computation is truthy: its effects
happen and the answer is true regardless of its settlement. -/
theorem promiseTruthy_run (m : M α) (h : Heap) :
    promiseTruthy m h = ((m h).1, (m h).2.1, .ok true) := by
  rw [promiseTruthy, M.tryCatch_apply, M.bind_apply]
  rcases hm : m h with ⟨h1, t, r⟩
  cases r <;> simp [M.pure_apply, hm]

/-- The before/after gate: Array.every with the asynchronous callback
over the observing helper starts every helper (their effects happen, one
fresh called cell per helper) and always answers true. -/
theorem everyAsync_wrap_run {C : Type} (ctx : C) :
    ∀ (ds : List SD) (h : Heap),
      everyAsync (fun m => wrapMiddlewareNextCall ctx m) (ds.map SD.sem) h =
        (h ++ ds.map calledFlag, (ds.map fun d => (wrapSpec d).1).flatten,
          .ok true) := by
  intro ds
  induction ds with
  | nil => intro h; simp [everyAsync, M.pure_apply]
  | cons d rest ih =>
    intro h
    simp only [List.map_cons, everyAsync, M.bind_apply, promiseTruthy_run,
      wrap_run]
    simp [ih, List.append_assoc]

/-- Promise.all of the observing helper over benign described stages:
every helper runs, and the list of continuation reports is exactly the
continues field of the descriptors. -/
theorem mapMQ_wrap_run {C : Type} (ctx : C) :
    ∀ (ds : List SD), (∀ d ∈ ds, d.benign = true) → ∀ h : Heap,
      mapMQ (fun m => wrapMiddlewareNextCall ctx m) (ds.map SD.sem) h =
        (h ++ ds.map calledFlag, (ds.map fun d => (wrapSpec d).1).flatten,
          .ok (ds.map SD.continues)) := by
  intro ds
  induction ds with
  | nil => intro _ h; simp [mapMQ, M.pure_apply]
  | cons d rest ih =>
    intro hb h
    have hd : d.benign = true := hb d (by simp)
    have hrest : ∀ x ∈ rest, x.benign = true := fun x hx => hb x (by simp [hx])
    simp only [List.map_cons, mapMQ, M.bind_apply, wrap_run]
    cases d with
    | calls pres posts =>
      simp [wrapSpec, ih hrest, M.pure_apply, calledFlag, SD.continues,
        List.append_assoc]
    | skips es =>
      simp [wrapSpec, ih hrest, M.pure_apply, calledFlag, SD.continues,
        List.append_assoc]
    | dbl pres mids => simp [SD.benign] at hd
    | thrower es msg => simp [SD.benign] at hd

/-- The constructor handler of a composer holding at least one
middleware is the composition of its middlewares. -/
theorem composerHandler_append_cons {C : Type} (A : List (Sem C)) (x : Sem C)
    (B : List (Sem C)) :
    composerHandler (A ++ x :: B) = compose (A ++ x :: B) := by
  cases A <;> rfl

/-- assertMiddlewares succeeds exactly on all-function lists. -/
theorem assertMiddlewares_ok (l : List JSVal)
    (hall : ∀ v ∈ l, v.isFunction = true) :
    assertMiddlewares l = .ok () := by
  induction l with
  | nil => rfl
  | cons v rest ih =>
    have hv : v.isFunction = true := hall v (by simp)
    simp [assertMiddlewares, assertMiddleware, hv,
      ih fun x hx => hall x (by simp [hx])]

/-- assertMiddlewares raises the TypeError when some element is not a
function. -/
theorem assertMiddlewares_err (l : List JSVal)
    (hex : ∃ v ∈ l, v.isFunction = false) :
    assertMiddlewares l = .error "Middleware must be composed of function!" := by
  induction l with
  | nil => simp at hex
  | cons v rest ih =>
    cases hv : v.isFunction with
    | false => simp [assertMiddlewares, assertMiddleware, hv]
    | true =>
      have hex2 : ∃ x ∈ rest, x.isFunction = false := by
        rcases hex with ⟨x, hx, hxf⟩
        rcases List.mem_cons.1 hx with h1 | h2
        · rw [h1] at hxf; rw [hv] at hxf; cases hxf
        · exact ⟨x, h2, hxf⟩
      simp [assertMiddlewares, assertMiddleware, hv, ih hex2]

/-!
Claim theorems.
-/

/-- C1: for every non-empty sequence of handlers in which each handler
invokes its continuation exactly once (stage i with pre-continuation
events pr.1 and post-continuation events pr.2), invoking the composed
handler runs all pre-continuation code in declaration order, then the
terminal continuation exactly once, then all post-continuation code in
reverse declaration order, and resolves. -/
theorem c1_nested_call_law {C : Type} (ps : List (List Evt × List Evt))
    (hne : ps ≠ []) (ctx : C) (e : Evt)
    (hdist : ∀ pr ∈ ps, e ∉ pr.1 ∧ e ∉ pr.2) :
    M.traceOf (compose ((ps.map fun pr => SD.calls pr.1 pr.2).map SD.sem)
        ctx (M.tells [e])) =
      (ps.map Prod.fst).flatten ++ [e] ++ (ps.reverse.map Prod.snd).flatten
    ∧ M.resOf (compose ((ps.map fun pr => SD.calls pr.1 pr.2).map SD.sem)
        ctx (M.tells [e])) = .ok ()
    ∧ (M.traceOf (compose ((ps.map fun pr => SD.calls pr.1 pr.2).map SD.sem)
        ctx (M.tells [e]))).count e = 1 := by
  have h := compose_chain (ps.map fun pr => SD.calls pr.1 pr.2) [e] ctx []
  rw [chainSpec_calls] at h
  refine ⟨?_, ?_, ?_⟩
  · simp only [M.traceOf]
    rw [h]
  · simp only [M.resOf]
    rw [h]
  · have h1 : (ps.map Prod.fst).flatten.count e = 0 := by
      rw [List.count_eq_zero]
      intro hmem
      rcases List.mem_flatten.1 hmem with ⟨l, hl, hel⟩
      rcases List.mem_map.1 hl with ⟨pr, hpr, hrfl⟩
      exact (hdist pr hpr).1 (hrfl ▸ hel)
    have h2 : (ps.reverse.map Prod.snd).flatten.count e = 0 := by
      rw [List.count_eq_zero]
      intro hmem
      rcases List.mem_flatten.1 hmem with ⟨l, hl, hel⟩
      rcases List.mem_map.1 hl with ⟨pr, hpr, hrfl⟩
      exact (hdist pr (List.mem_reverse.1 hpr)).2 (hrfl ▸ hel)
    simp only [M.traceOf]
    rw [h]
    simp only [List.count_append, h1, h2]
    simp

/-- Witness for C1 at a concrete two-stage chain. -/
theorem c1_nested_call_law_witness :
    M.traceOf (compose (([(["a1"], ["b1"]), (["a2"], ["b2"])].map
        fun pr => SD.calls pr.1 pr.2).map SD.sem) () (M.tells ["TERM"])) =
      (([(["a1"], ["b1"]), (["a2"], ["b2"])] :
          List (List Evt × List Evt)).map Prod.fst).flatten ++ ["TERM"] ++
        (([(["a1"], ["b1"]), (["a2"], ["b2"])] :
          List (List Evt × List Evt)).reverse.map Prod.snd).flatten
    ∧ M.resOf (compose (([(["a1"], ["b1"]), (["a2"], ["b2"])].map
        fun pr => SD.calls pr.1 pr.2).map SD.sem) () (M.tells ["TERM"])) =
      .ok ()
    ∧ (M.traceOf (compose (([(["a1"], ["b1"]), (["a2"], ["b2"])].map
        fun pr => SD.calls pr.1 pr.2).map SD.sem) ()
        (M.tells ["TERM"]))).count "TERM" = 1 :=
  c1_nested_call_law [(["a1"], ["b1"]), (["a2"], ["b2"])] (by decide) ()
    "TERM" (by decide)

/-- C2: in a chain whose other stages continue exactly once, a stage that
invokes its continuation a second time within the same invocation makes
the whole invocation reject with the error next() called multiple times
(the downstream ran once; the stage's own post-code up to the second call
ran; upstream post-code is skipped by the rejection); and a stage that
never invokes its continuation (and does not throw) leaves the stages
after it and the terminal continuation un-run while the invocation still
resolves. -/
theorem c2_second_call_rejects_zero_call_halts {C : Type}
    (A B : List (List Evt × List Evt)) (pres mids es : List Evt) (ctx : C)
    (e : Evt) :
    (M.traceOf (compose (((A.map fun pr => SD.calls pr.1 pr.2) ++
          SD.dbl pres mids :: (B.map fun pr => SD.calls pr.1 pr.2)).map
          SD.sem) ctx (M.tells [e])) =
        (A.map Prod.fst).flatten ++ pres ++ (B.map Prod.fst).flatten ++ [e] ++
          (B.reverse.map Prod.snd).flatten ++ mids
      ∧ M.resOf (compose (((A.map fun pr => SD.calls pr.1 pr.2) ++
          SD.dbl pres mids :: (B.map fun pr => SD.calls pr.1 pr.2)).map
          SD.sem) ctx (M.tells [e])) = .err "next() called multiple times")
    ∧ (M.traceOf (compose (((A.map fun pr => SD.calls pr.1 pr.2) ++
          SD.skips es :: (B.map fun pr => SD.calls pr.1 pr.2)).map
          SD.sem) ctx (M.tells [e])) =
        (A.map Prod.fst).flatten ++ es ++ (A.reverse.map Prod.snd).flatten
      ∧ M.resOf (compose (((A.map fun pr => SD.calls pr.1 pr.2) ++
          SD.skips es :: (B.map fun pr => SD.calls pr.1 pr.2)).map
          SD.sem) ctx (M.tells [e])) = .ok ()) := by
  have hdbl := compose_chain ((A.map fun pr => SD.calls pr.1 pr.2) ++
    SD.dbl pres mids :: (B.map fun pr => SD.calls pr.1 pr.2)) [e] ctx []
  have hskip := compose_chain ((A.map fun pr => SD.calls pr.1 pr.2) ++
    SD.skips es :: (B.map fun pr => SD.calls pr.1 pr.2)) [e] ctx []
  rw [chainSpec_calls_append] at hdbl hskip
  rw [show chainSpec (SD.dbl pres mids ::
      (B.map fun pr => SD.calls pr.1 pr.2)) [e] =
      (pres ++ ((B.map Prod.fst).flatten ++ [e] ++
        (B.reverse.map Prod.snd).flatten) ++ mids,
        .err "next() called multiple times") by
    simp [chainSpec, chainSpec_calls]] at hdbl
  rw [show chainSpec (SD.skips es ::
      (B.map fun pr => SD.calls pr.1 pr.2)) [e] = (es, .ok ()) from rfl]
    at hskip
  constructor
  · constructor
    · simp only [M.traceOf]
      rw [hdbl]
      simp [List.append_assoc]
    · simp only [M.resOf]
      rw [hdbl]
  · constructor
    · simp only [M.traceOf]
      rw [hskip]
    · simp only [M.resOf]
      rw [hskip]

/-- C3, evaluated at the failing input: a single before-stage that never
invokes its continuation, one main stage.  The claim (and the intent of
the code, which computes a called gate from the observing helper) is
that the main stages and the outer continuation must not run; the code
runs both, because Array.prototype.every applied to an asynchronous
callback receives a Promise, which is always truthy. -/
theorem c3_before_gate_failing_input :
    M.traceOf (getBeforeMiddleware (C := Unit) [SD.sem (.skips ["before"])]
        [SD.sem (.calls ["main"] [])] () (M.tells ["outer-next"])) =
      ["before", "main", "outer-next"]
    ∧ M.resOf (getBeforeMiddleware (C := Unit) [SD.sem (.skips ["before"])]
        [SD.sem (.calls ["main"] [])] () (M.tells ["outer-next"])) =
      .ok () := by
  exact ⟨by decide, by decide⟩

/-- C7 counterexample: the enforce combinator is not equivalent to
applying the Before combinator and then the After combinator.  With one
before-stage that emits b1 and never invokes its continuation, one main
stage (pre m1, no post), no after-stage, and an outer continuation
emitting TERM, enforce is the flat chain, which halts at the
before-stage: the main stage and the outer continuation never run and
the trace is just b1.  The Before-then-After composition runs them
anyway, because the every gate over asynchronous callbacks is always
truthy, and its trace is b1, m1, TERM.  At this input every stage body
finishes before its observing-helper promise is discarded and no stage
has post-continuation code, so these are exactly the event orders of the
code, and they differ. -/
theorem c7_enforce_neq_before_after_counterexample :
    M.traceOf (getEnforceMiddleware (C := Unit)
        [SD.sem (.skips ["b1"])] [SD.sem (.calls ["m1"] [])] [] ()
        (M.tells ["TERM"])) = ["b1"]
    ∧ M.resOf (getEnforceMiddleware (C := Unit)
        [SD.sem (.skips ["b1"])] [SD.sem (.calls ["m1"] [])] [] ()
        (M.tells ["TERM"])) = .ok ()
    ∧ M.traceOf (getBeforeMiddleware (C := Unit)
        [SD.sem (.skips ["b1"])]
        [getAfterMiddleware [SD.sem (.calls ["m1"] [])] []] ()
        (M.tells ["TERM"])) = ["b1", "m1", "TERM"]
    ∧ M.traceOf (getEnforceMiddleware (C := Unit)
        [SD.sem (.skips ["b1"])] [SD.sem (.calls ["m1"] [])] [] ()
        (M.tells ["TERM"])) ≠
      M.traceOf (getBeforeMiddleware (C := Unit)
        [SD.sem (.skips ["b1"])]
        [getAfterMiddleware [SD.sem (.calls ["m1"] [])] []] ()
        (M.tells ["TERM"])) := by
  refine ⟨by decide, by decide, by decide, by decide⟩

/-- C7 amended: the handler produced by the enforce combinator is the
flat composition of before ++ main ++ after into one nested chain: its
trace and settlement are exactly chainSpec of the concatenated stage
list, so a stage of any phase that does not invoke its continuation
halts every later phase and the outer continuation, and
post-continuation code of earlier stages runs after the later phases
complete, in reverse nesting order. -/
theorem c7_enforce_flat_chain {C : Type} (bds mds ads : List SD) (ctx : C)
    (term : List Evt) (h : Heap) :
    getEnforceMiddleware (bds.map SD.sem) (mds.map SD.sem) (ads.map SD.sem)
        ctx (M.tells term) h =
      (h ++ [finalIdx (bds ++ mds ++ ads)],
        (chainSpec (bds ++ mds ++ ads) term).1,
        (chainSpec (bds ++ mds ++ ads) term).2) := by
  show compose (bds.map SD.sem ++ mds.map SD.sem ++ ads.map SD.sem) ctx
    (M.tells term) h = _
  rw [← List.map_append, ← List.map_append]
  exact compose_chain (bds ++ mds ++ ads) term ctx h

/-- C10: each invocation of a composed handler allocates a fresh
dispatch cursor at the end of the heap and its trace and settlement are
independent of all pre-existing state; consequently running the same
composed handler twice in sequence gives each run the very same trace
and settlement it has running alone, and a continuation call of one
invocation can never trip the multiple-times guard of the other. -/
theorem c10_invocation_independence {C : Type} (ds : List SD) (ctx : C)
    (term : List Evt) :
    (∀ h : Heap,
      compose (ds.map SD.sem) ctx (M.tells term) h =
        (h ++ [finalIdx ds], (chainSpec ds term).1, (chainSpec ds term).2))
    ∧ ((chainSpec ds term).2 = .ok () →
        (M.bind (compose (ds.map SD.sem) ctx (M.tells term)) fun _ =>
          compose (ds.map SD.sem) ctx (M.tells term)) [] =
          ([finalIdx ds, finalIdx ds],
            (chainSpec ds term).1 ++ (chainSpec ds term).1, .ok ())) := by
  refine ⟨fun h => compose_chain ds term ctx h, fun hok => ?_⟩
  rcases hspec : chainSpec ds term with ⟨t, r⟩
  rw [hspec] at hok
  simp only at hok
  subst hok
  simp [M.bind_apply, compose_chain, hspec]

/-- C5: for benign stages (each either continues exactly once or omits
its continuation, none throwing), the concurrency combinator runs every
stage through the observing helper and invokes the outer continuation
exactly when every stage continued; an omission alone never raises an
error, the combinator still resolves. -/
theorem c5_concurrency_all_or_nothing {C : Type} (ds : List SD)
    (hb : ∀ d ∈ ds, d.benign = true) (ctx : C) (e : Evt)
    (he : ∀ d ∈ ds, e ∉ (wrapSpec d).1) :
    M.traceOf (getConcurrencyMiddleware (ds.map SD.sem) ctx (M.tell e)) =
      (ds.map fun d => (wrapSpec d).1).flatten ++
        (if ds.all SD.continues then [e] else [])
    ∧ M.resOf (getConcurrencyMiddleware (ds.map SD.sem) ctx (M.tell e)) =
      .ok ()
    ∧ (e ∈ M.traceOf (getConcurrencyMiddleware (ds.map SD.sem) ctx (M.tell e))
        ↔ ∀ d ∈ ds, d.continues = true) := by
  have hrun : getConcurrencyMiddleware (ds.map SD.sem) ctx (M.tell e) [] =
      (ds.map calledFlag,
        (ds.map fun d => (wrapSpec d).1).flatten ++
          (if ds.all SD.continues then [e] else []), .ok ()) := by
    show (M.bind (mapMQ (fun m => wrapMiddlewareNextCall ctx m)
        (ds.map SD.sem)) fun concurrencies =>
      if concurrencies.all id then M.tell e else M.pure ()) [] = _
    rw [M.bind_apply, mapMQ_wrap_run ctx ds hb []]
    have hall : ∀ l : List SD, (l.map SD.continues).all id = l.all SD.continues := by
      intro l
      induction l with
      | nil => rfl
      | cons d rest ih => simp [List.all_cons, ih]
    cases hc : ds.all SD.continues with
    | true => simp [hall ds, hc, M.tell_apply]
    | false => simp [hall ds, hc, M.pure_apply]
  have hnotin : e ∉ (ds.map fun d => (wrapSpec d).1).flatten := by
    intro hmem
    rcases List.mem_flatten.1 hmem with ⟨l, hl, hel⟩
    rcases List.mem_map.1 hl with ⟨d, hd, hrfl⟩
    exact he d hd (hrfl ▸ hel)
  refine ⟨?_, ?_, ?_⟩
  · simp only [M.traceOf]
    rw [hrun]
  · simp only [M.resOf]
    rw [hrun]
  · simp only [M.traceOf]
    rw [hrun]
    show e ∈ (ds.map fun d => (wrapSpec d).1).flatten ++
      (if ds.all SD.continues then [e] else []) ↔ _
    constructor
    · intro hmem d hd
      by_contra hnot
      have hfalse : ds.all SD.continues = false := by
        rcases Bool.eq_false_or_eq_true (ds.all SD.continues) with ht | hf
        · exact absurd (by simpa using List.all_eq_true.1 ht d hd) hnot
        · exact hf
      rw [hfalse] at hmem
      simp at hmem
      rcases hmem with ⟨a, ha, hea⟩
      exact he a ha hea
    · intro hallc
      have ht : ds.all SD.continues = true := List.all_eq_true.2 fun d hd => by
        simpa using hallc d hd
      rw [ht]
      simp

/-- Witness for C5: one continuing stage and one omitting stage; the
outer continuation is not invoked and no error is raised. -/
theorem c5_concurrency_all_or_nothing_witness :
    M.traceOf (getConcurrencyMiddleware
        (([SD.calls ["s1"] [], SD.skips ["s2"]]).map SD.sem) ()
        (M.tell "TERM")) =
      (([SD.calls ["s1"] [], SD.skips ["s2"]]).map
        fun d => (wrapSpec d).1).flatten ++
        (if ([SD.calls ["s1"] [], SD.skips ["s2"]]).all SD.continues
          then ["TERM"] else [])
    ∧ M.resOf (getConcurrencyMiddleware
        (([SD.calls ["s1"] [], SD.skips ["s2"]]).map SD.sem) ()
        (M.tell "TERM")) = .ok ()
    ∧ ("TERM" ∈ M.traceOf (getConcurrencyMiddleware
        (([SD.calls ["s1"] [], SD.skips ["s2"]]).map SD.sem) ()
        (M.tell "TERM")) ↔
        ∀ d ∈ ([SD.calls ["s1"] [], SD.skips ["s2"]] : List SD),
          d.continues = true) :=
  c5_concurrency_all_or_nothing [SD.calls ["s1"] [], SD.skips ["s2"]]
    (by decide) () "TERM" (by decide)

/-- C9: compose validates eagerly.  If any argument (the call sites pass
flattened values) is not callable, compose itself yields the TypeError
Middleware must be composed of function, before any composed handler
exists; when every argument is a function the dispatcher is built and
returned, so validation is never deferred to an invocation. -/
theorem c9_compose_eager_validation (C : Type) (args : List JSVal) :
    ((∃ v ∈ args, v.isFunction = false) →
      composeChecked C args = .error "Middleware must be composed of function!")
    ∧ ((∀ v ∈ args, v.isFunction = true) →
      composeChecked C args = .ok (compose (args.map JSVal.sem))) := by
  constructor
  · intro hex
    rw [composeChecked, assertMiddlewares_err args hex]
  · intro hall
    rw [composeChecked, assertMiddlewares_ok args hall]

/-- Witness for C9: a list with a non-callable element is rejected at
composition time. -/
theorem c9_compose_eager_validation_witness :
    composeChecked Unit [JSVal.fnV .done, JSVal.notCallable "undefined"] =
      .error "Middleware must be composed of function!" :=
  (c9_compose_eager_validation Unit
    [JSVal.fnV .done, JSVal.notCallable "undefined"]).1 (by decide)

/-- C6 counterexample: with a forked sub-chain (events fork-pre then
fork-done) ahead of a later stage (pre a, post b), the outer continuation
resolves first (TERM appears before any fork event), yet the parent
invocation's own trace still ends with the fork's completion: the fork
stage returns Promise.all of the continuation and the sub-chain, so the
invocation settles only once the forked sub-chain has finished,
contradicting the claim that the parent does not wait for the fork. -/
theorem c6_fork_parent_waits_counterexample :
    M.traceOf (compose (C := Unit)
        [forkStage (composerHandler
          [SD.sem (.calls ["fork-pre"] ["fork-done"])]),
         SD.sem (.calls ["a"] ["b"])] () (M.tells ["TERM"])) =
      ["a", "TERM", "b", "fork-pre", "fork-done"]
    ∧ M.resOf (compose (C := Unit)
        [forkStage (composerHandler
          [SD.sem (.calls ["fork-pre"] ["fork-done"])]),
         SD.sem (.calls ["a"] ["b"])] () (M.tells ["TERM"])) = .ok () := by
  exact ⟨by decide, by decide⟩

/-- Inner run of an error boundary's protected chain when a protected
stage throws: a prefix of single-continuation stages, then a stage that
emits es and throws E (later protected stages arbitrary, never reached).
The sub-chain's terminal continuation is never invoked and the
composition rejects with the thrown value. -/
theorem compose_prefix_thrower {C : Type} (ctx : C)
    (A : List (List Evt × List Evt)) (es : List Evt) (E : String)
    (B : List (Sem C)) (knext : M Unit) (h : Heap) :
    compose ((A.map fun pr => SD.sem (.calls pr.1 pr.2)) ++
        SD.sem (.thrower es E) :: B) ctx knext h =
      (h ++ [(A.length : Int)], (A.map Prod.fst).flatten ++ es, .err E) := by
  show (M.bind (M.alloc (-1)) fun cell =>
    nextDispatch ctx knext cell
      ((A.map fun pr => SD.sem (.calls pr.1 pr.2)) ++
        SD.sem (.thrower es E) :: B) 0) h = _
  rw [M.bind_apply, M.alloc_apply]
  show (match nextDispatch ctx knext h.length
      ((A.map fun pr => SD.sem (.calls pr.1 pr.2)) ++
        SD.sem (.thrower es E) :: B) 0 (h ++ [-1]) with
    | (h2, t2, r) => (h2, ([] : List Evt) ++ t2, r)) = _
  rw [nextDispatch_callsPrefix ctx knext h.length
    (SD.sem (.thrower es E) :: B) A 0 (h ++ [-1]) (by simp)
    (by rw [Heap.getD_append_last]; norm_num)]
  have hbig : nextDispatch ctx knext h.length
      (SD.sem (.thrower es E) :: B) (0 + A.length)
      ((h ++ [-1]).set h.length (((0 : Nat) : Int) + A.length - 1)) =
      (h ++ [(A.length : Int)], es, .err E) := by
    rw [show (((0 : Nat) : Int) + (A.length : Int) - 1) = (A.length : Int) - 1
        from by push_cast; ring, Heap.set_append_last]
    rw [nextDispatch_fresh ctx knext h.length _ (0 + A.length) _
      (by rw [Heap.getD_append_last]; push_cast; omega)]
    show runProg (SD.prog (.thrower es E))
      (nextDispatch ctx knext h.length B (0 + A.length + 1))
      ((h ++ [(A.length : Int) - 1]).set h.length
        (((0 + A.length : Nat) : Int))) = _
    rw [show (((0 + A.length : Nat) : Int)) = (A.length : Int) from
        by push_cast; ring, Heap.set_append_last, runProg_thrower]
  rw [hbig]
  simp

/-- The error-boundary stage over a protected chain whose stage throws E
after the single-continuation prefix A: the handler receives the
boundary error made of exactly the thrown value and the context; the
outer continuation runs right after the handler exactly when the handler
invoked the resumption continuation, and the stage resolves when the
handler does not throw. -/
theorem errorBoundaryStage_thrower_run {C : Type} (ctx : C)
    (A : List (List Evt × List Evt)) (es : List Evt) (E : String)
    (B : List (Sem C)) (hf : BoundaryError C → MWProg)
    (hnothrow : (hf (BoundaryError.mk E ctx)).noThrow = true)
    (next : M Unit) (h : Heap) :
    errorBoundaryStage hf ((A.map fun pr => SD.sem (.calls pr.1 pr.2)) ++
        SD.sem (.thrower es E) :: B) ctx next h =
      (if (hf (BoundaryError.mk E ctx)).callsNext then
        (match next ((h ++ [(1 : Int)]) ++ [(A.length : Int)]) with
         | (h2, t2, r2) =>
            (h2, (A.map Prod.fst).flatten ++ es ++
              (hf (BoundaryError.mk E ctx)).emits ++ t2, r2))
      else ((h ++ [(0 : Int)]) ++ [(A.length : Int)],
          (A.map Prod.fst).flatten ++ es ++
            (hf (BoundaryError.mk E ctx)).emits, .ok ())) := by
  show (M.bind (M.alloc 0) fun nextCalled =>
    M.bind
      (M.tryCatch (composerHandler
          ((A.map fun pr => SD.sem (.calls pr.1 pr.2)) ++
            SD.sem (.thrower es E) :: B) ctx (M.write nextCalled 1))
        (fun err =>
          M.bind (M.write nextCalled 0) fun _ =>
            runProg (hf (BoundaryError.mk err ctx))
              (M.write nextCalled 1))) fun _ =>
    M.bind (M.read nextCalled) fun v =>
      if v ≠ 0 then next else M.pure ()) h = _
  rw [M.bind_apply, M.alloc_apply]
  have htry : M.tryCatch (composerHandler
      ((A.map fun pr => SD.sem (.calls pr.1 pr.2)) ++
        SD.sem (.thrower es E) :: B) ctx (M.write h.length 1))
      (fun err =>
        M.bind (M.write h.length 0) fun _ =>
          runProg (hf (BoundaryError.mk err ctx))
            (M.write h.length 1)) (h ++ [(0 : Int)]) =
      ((if (hf (BoundaryError.mk E ctx)).callsNext
          then (h ++ [(1 : Int)]) ++ [(A.length : Int)]
          else (h ++ [(0 : Int)]) ++ [(A.length : Int)]),
        (A.map Prod.fst).flatten ++ es ++
          (hf (BoundaryError.mk E ctx)).emits, .ok ()) := by
    rw [M.tryCatch_apply, composerHandler_append_cons,
      compose_prefix_thrower ctx A es E B (M.write h.length 1) (h ++ [(0 : Int)])]
    have hset0 : ((h ++ [(0 : Int)]) ++ [(A.length : Int)]).set h.length 0 =
        (h ++ [(0 : Int)]) ++ [(A.length : Int)] := by
      rw [Heap.set_append_left _ _ _ _ (by simp), Heap.set_append_last]
    have hset1 : ((h ++ [(0 : Int)]) ++ [(A.length : Int)]).set h.length 1 =
        (h ++ [(1 : Int)]) ++ [(A.length : Int)] := by
      rw [Heap.set_append_left _ _ _ _ (by simp), Heap.set_append_last]
    have hrp := runProg_writeK h.length (hf (BoundaryError.mk E ctx))
      ((h ++ [(0 : Int)]) ++ [(A.length : Int)]) hnothrow
    rw [hset1] at hrp
    simp only [M.bind_apply, M.write_apply, hset0, hrp]
    cases hcalls : (hf (BoundaryError.mk E ctx)).callsNext <;>
      simp [List.append_assoc]
  show (match (M.bind (M.tryCatch (composerHandler
      ((A.map fun pr => SD.sem (.calls pr.1 pr.2)) ++
        SD.sem (.thrower es E) :: B) ctx (M.write h.length 1))
      (fun err =>
        M.bind (M.write h.length 0) fun _ =>
          runProg (hf (BoundaryError.mk err ctx))
            (M.write h.length 1))) fun _ =>
    M.bind (M.read h.length) fun v =>
      if v ≠ 0 then next else M.pure ()) (h ++ [(0 : Int)]) with
    | (h2, t2, r) => (h2, ([] : List Evt) ++ t2, r)) = _
  rw [M.bind_apply, htry]
  have hget1 : ((h ++ [(1 : Int)]) ++ [(A.length : Int)]).getD h.length 0 =
      1 := by
    rw [Heap.getD_append_left _ _ h.length (by simp), Heap.getD_append_last]
  have hget0 : ((h ++ [(0 : Int)]) ++ [(A.length : Int)]).getD h.length 0 =
      0 := by
    rw [Heap.getD_append_left _ _ h.length (by simp), Heap.getD_append_last]
  cases hcalls : (hf (BoundaryError.mk E ctx)).callsNext with
  | true =>
    simp only [eq_self_iff_true, if_true, M.bind_apply, M.read_apply, hget1]
    rw [if_pos (by norm_num : ((1 : Int) ≠ 0))]
    rcases hnext : next ((h ++ [(1 : Int)]) ++ [(A.length : Int)])
      with ⟨h2, t2, r2⟩
    simp
  | false =>
    simp only [show ((false : Bool) = true) = False from by simp, if_false,
      M.bind_apply, M.read_apply, hget0]
    rw [if_neg (by norm_num : ¬ ((0 : Int) ≠ 0))]
    simp [M.pure_apply]

/-- C4: for every protected chain in which a stage throws E after a
prefix of single-continuation stages, the boundary's error handler
receives a BoundaryError whose error field is exactly E and whose ctx
field is exactly the context of the run (the handler body is an
arbitrary function of the received boundary error, and the run's trace
contains precisely the events that function emits at the value made of E
and ctx); if the handler invokes the resumption continuation it is
given, the outer chain's continuation runs afterwards; if it neither
invokes it nor throws, the outer continuation never runs and the whole
invocation still resolves, no error escaping the boundary. -/
theorem c4_error_boundary {C : Type} (ctx : C)
    (A : List (List Evt × List Evt)) (es : List Evt) (E : String)
    (B : List (Sem C)) (hf : BoundaryError C → MWProg)
    (hnothrow : (hf (BoundaryError.mk E ctx)).noThrow = true) (e : Evt) :
    M.traceOf (compose [errorBoundaryStage hf
        ((A.map fun pr => SD.sem (.calls pr.1 pr.2)) ++
          SD.sem (.thrower es E) :: B)] ctx (M.tells [e])) =
      (A.map Prod.fst).flatten ++ es ++
        (hf (BoundaryError.mk E ctx)).emits ++
        (if (hf (BoundaryError.mk E ctx)).callsNext then [e] else [])
    ∧ M.resOf (compose [errorBoundaryStage hf
        ((A.map fun pr => SD.sem (.calls pr.1 pr.2)) ++
          SD.sem (.thrower es E) :: B)] ctx (M.tells [e])) = .ok () := by
  have hrun : compose [errorBoundaryStage hf
      ((A.map fun pr => SD.sem (.calls pr.1 pr.2)) ++
        SD.sem (.thrower es E) :: B)] ctx (M.tells [e]) [] =
      ((if (hf (BoundaryError.mk E ctx)).callsNext
          then [(1 : Int), 1, (A.length : Int)]
          else [(0 : Int), 0, (A.length : Int)]),
        (A.map Prod.fst).flatten ++ es ++
          (hf (BoundaryError.mk E ctx)).emits ++
          (if (hf (BoundaryError.mk E ctx)).callsNext then [e] else []),
        .ok ()) := by
    show (M.bind (M.alloc (-1)) fun cell =>
      nextDispatch ctx (M.tells [e]) cell
        [errorBoundaryStage hf
          ((A.map fun pr => SD.sem (.calls pr.1 pr.2)) ++
            SD.sem (.thrower es E) :: B)] 0) [] = _
    rw [M.bind_apply, M.alloc_apply]
    show (match nextDispatch ctx (M.tells [e]) 0
        [errorBoundaryStage hf
          ((A.map fun pr => SD.sem (.calls pr.1 pr.2)) ++
            SD.sem (.thrower es E) :: B)] 0 [(-1 : Int)] with
      | (h2, t2, r) => (h2, ([] : List Evt) ++ t2, r)) = _
    rw [nextDispatch_fresh ctx _ 0 _ 0 _ (by decide)]
    rw [show (([(-1 : Int)] : Heap).set 0 ((0 : Nat) : Int)) =
      [(0 : Int)] from rfl]
    show (match errorBoundaryStage hf
        ((A.map fun pr => SD.sem (.calls pr.1 pr.2)) ++
          SD.sem (.thrower es E) :: B) ctx
        (nextDispatch ctx (M.tells [e]) 0 [] 1) [(0 : Int)] with
      | (h2, t2, r) => (h2, ([] : List Evt) ++ t2, r)) = _
    rw [errorBoundaryStage_thrower_run ctx A es E B hf hnothrow
      (nextDispatch ctx (M.tells [e]) 0 [] 1) [(0 : Int)]]
    have hk1 : nextDispatch ctx (M.tells [e]) 0 ([] : List (Sem C)) 1
        (([(0 : Int)] ++ [(1 : Int)]) ++ [(A.length : Int)]) =
        ([(1 : Int), 1, (A.length : Int)], [e], .ok ()) := by
      rw [nextDispatch_fresh ctx _ 0 _ 1 _
        (by show (0 : Int) < (1 : Nat); norm_num)]
      exact M.tells_apply [e] _
    cases hcalls : (hf (BoundaryError.mk E ctx)).callsNext with
    | true =>
      simp only [hk1]
      simp [List.append_assoc]
    | false => simp [List.append_assoc]
  constructor
  · simp only [M.traceOf]
    rw [hrun]
  · simp only [M.resOf]
    rw [hrun]

/-- Witness for C4: one protected prefix stage, the thrown value boom, a
handler that emits the received error field and resumes.  The emitted
event equals the thrown value and the outer continuation event follows
the handler's. -/
theorem c4_error_boundary_witness :
    M.traceOf (compose [errorBoundaryStage
        (fun be => MWProg.emit be.error (MWProg.callNext .done))
        (([(["p1"], ["p2"])].map fun pr => SD.sem (.calls pr.1 pr.2)) ++
          SD.sem (.thrower ["boom-pre"] "boom") :: [])] (7 : Nat)
        (M.tells ["TERM"])) =
      ([(["p1"], ["p2"])].map Prod.fst).flatten ++ ["boom-pre"] ++
        ((fun (be : BoundaryError Nat) =>
          MWProg.emit be.error (MWProg.callNext .done))
          (BoundaryError.mk "boom" 7)).emits ++
        (if ((fun (be : BoundaryError Nat) =>
          MWProg.emit be.error (MWProg.callNext .done))
          (BoundaryError.mk "boom" 7)).callsNext then ["TERM"] else [])
    ∧ M.resOf (compose [errorBoundaryStage
        (fun be => MWProg.emit be.error (MWProg.callNext .done))
        (([(["p1"], ["p2"])].map fun pr => SD.sem (.calls pr.1 pr.2)) ++
          SD.sem (.thrower ["boom-pre"] "boom") :: [])] (7 : Nat)
        (M.tells ["TERM"])) = .ok () :=
  c4_error_boundary 7 [(["p1"], ["p2"])] ["boom-pre"] "boom" []
    (fun be => MWProg.emit be.error (MWProg.callNext .done)) (by decide)
    "TERM"

/-- C6 amended: when a fork stage is reached, the outer continuation and
the forked sub-chain are both started, but the parent chain's invocation
settles only after the forked sub-chain has settled too (the fork stage
returns Promise.all of the two): the invocation's trace is the
continuation's full trace followed by the complete sub-chain trace, and
its settlement incorporates the sub-chain's settlement. -/
theorem c6_fork_both_started_parent_waits {C : Type} (ds : List SD)
    (hne : ds ≠ []) (aPre aPost : List Evt) (ctx : C) (e : Evt) :
    M.traceOf (compose [forkStage (composerHandler (ds.map SD.sem)),
        SD.sem (.calls aPre aPost)] ctx (M.tells [e])) =
      aPre ++ [e] ++ aPost ++ (chainSpec ds []).1
    ∧ M.resOf (compose [forkStage (composerHandler (ds.map SD.sem)),
        SD.sem (.calls aPre aPost)] ctx (M.tells [e])) =
      (chainSpec ds []).2 := by
  have hch : composerHandler (ds.map (SD.sem (C := C))) =
      compose (ds.map (SD.sem (C := C))) := by
    cases ds with
    | nil => exact absurd rfl hne
    | cons a l => rfl
  have hk2 : nextDispatch ctx (M.tells [e]) 0 ([] : List (Sem C)) 2
      [(1 : Int)] = ([(2 : Int)], [e], .ok ()) := by
    rw [nextDispatch_fresh ctx _ 0 _ 2 _ (by decide)]
    rw [show (([(1 : Int)] : Heap).set 0 ((2 : Nat) : Int)) =
      [(2 : Int)] from rfl]
    exact M.tells_apply [e] _
  have hk1 : nextDispatch ctx (M.tells [e]) 0 [SD.sem (.calls aPre aPost)] 1
      [(0 : Int)] = ([(2 : Int)], aPre ++ [e] ++ aPost, .ok ()) := by
    rw [nextDispatch_fresh ctx _ 0 _ 1 _ (by decide)]
    rw [show (([(0 : Int)] : Heap).set 0 ((1 : Nat) : Int)) =
      [(1 : Int)] from rfl]
    show runProg (SD.prog (.calls aPre aPost))
      (nextDispatch ctx (M.tells [e]) 0 [] 2) [(1 : Int)] = _
    rw [runProg_calls, hk2]
  have hsub := compose_chain ds [] ctx [(2 : Int)]
  have hrun : compose [forkStage (composerHandler (ds.map SD.sem)),
      SD.sem (.calls aPre aPost)] ctx (M.tells [e]) [] =
      ([(2 : Int), finalIdx ds],
        aPre ++ [e] ++ aPost ++ (chainSpec ds []).1, (chainSpec ds []).2) := by
    show (M.bind (M.alloc (-1)) fun cell =>
      nextDispatch ctx (M.tells [e]) cell
        [forkStage (composerHandler (ds.map SD.sem)),
         SD.sem (.calls aPre aPost)] 0) [] = _
    rw [M.bind_apply, M.alloc_apply]
    show (match nextDispatch ctx (M.tells [e]) 0
        [forkStage (composerHandler (ds.map SD.sem)),
         SD.sem (.calls aPre aPost)] 0 [(-1 : Int)] with
      | (h2, t2, r) => (h2, ([] : List Evt) ++ t2, r)) = _
    rw [nextDispatch_fresh ctx _ 0 _ 0 _ (by decide)]
    rw [show (([(-1 : Int)] : Heap).set 0 ((0 : Nat) : Int)) =
      [(0 : Int)] from rfl]
    show (match M.par
        (nextDispatch ctx (M.tells [e]) 0 [SD.sem (.calls aPre aPost)] 1)
        (composerHandler (ds.map SD.sem) ctx noopNext) [(0 : Int)] with
      | (h2, t2, r) => (h2, ([] : List Evt) ++ t2, r)) = _
    rw [hch, noopNext_eq_tells, M.par_apply, hk1]
    rcases hspec : chainSpec ds [] with ⟨t, r⟩
    rw [hspec] at hsub
    simp [hsub, List.append_assoc]
  constructor
  · simp only [M.traceOf]
    rw [hrun]
  · simp only [M.resOf]
    rw [hrun]

/-- Witness for C6 amended at a concrete forked sub-chain. -/
theorem c6_fork_both_started_parent_waits_witness :
    M.traceOf (compose (C := Unit)
        [forkStage (composerHandler ([SD.calls ["f1"] ["f2"]].map SD.sem)),
         SD.sem (.calls ["a"] ["b"])] () (M.tells ["T"])) =
      ["a"] ++ ["T"] ++ ["b"] ++ (chainSpec [SD.calls ["f1"] ["f2"]] []).1
    ∧ M.resOf (compose (C := Unit)
        [forkStage (composerHandler ([SD.calls ["f1"] ["f2"]].map SD.sem)),
         SD.sem (.calls ["a"] ["b"])] () (M.tells ["T"])) =
      (chainSpec [SD.calls ["f1"] ["f2"]] []).2 :=
  c6_fork_both_started_parent_waits [SD.calls ["f1"] ["f2"]] (by decide)
    ["a"] ["b"] () "T"

/-- C8 counterexample: middleware added to the sub-builder returned by
tap, after the tap call, does not run in the parent chain: use flattens
the sub-composer object immediately, so the parent captured the
sub-builder's handler value at tap time; the later extension (emitting
m2) is absent from the parent invocation's trace. -/
theorem c8_tap_capture_counterexample :
    subBuilderScenario Composer.tap = ["m1"]
    ∧ "m2" ∉ subBuilderScenario Composer.tap := by
  exact ⟨by decide, by decide⟩

/-- C8 amended: fork, filter and drop return a sub-builder whose later
extensions run in the parent chain (their registered stages dereference
the sub-composer's current handler at invocation time); tap also returns
a new sub-builder, but the parent captures its composed handler at the
time of the tap call, so middleware added to tap's return afterwards
does not run in the parent chain. -/
theorem c8_subbuilder_extension :
    "m2" ∈ subBuilderScenario Composer.fork
    ∧ "m2" ∈ subBuilderScenario
        (fun ch self mws => Composer.filter ch self true mws)
    ∧ "m2" ∈ subBuilderScenario
        (fun ch self mws => Composer.drop ch self true mws)
    ∧ "m2" ∉ subBuilderScenario Composer.tap := by
  exact ⟨by decide, by decide, by decide, by decide⟩

/-- Witness for C10 at a concrete one-stage chain. -/
theorem c10_invocation_independence_witness :
    (M.bind (compose ([SD.calls ["x"] ["y"]].map SD.sem) ()
        (M.tells ["t"])) fun _ =>
      compose ([SD.calls ["x"] ["y"]].map SD.sem) () (M.tells ["t"])) [] =
      ([finalIdx [SD.calls ["x"] ["y"]], finalIdx [SD.calls ["x"] ["y"]]],
        (chainSpec [SD.calls ["x"] ["y"]] ["t"]).1 ++
          (chainSpec [SD.calls ["x"] ["y"]] ["t"]).1, .ok ()) :=
  (c10_invocation_independence [SD.calls ["x"] ["y"]] () ["t"]).2 (by decide)

end ComposerModel
